import Mathlib

/-
  Verification of the cpp-opt-parser classification core.

  Shallow embedding of the C++ sources:
    src/parserlib/ParserConfig.hpp    (ParserConfig: isDelim, countPrefix, allowCapture)
    src/parserlib/VariantArgument.hpp (VariantArgument, name, hasv, getv, operators)
    src/parserlib/parseArgs.hpp       (parseArgs classification algorithm)
    src/parserlib/Params.hpp          (Params::find / findAll / getv)
    src/parserlib/ParamsAPI.hpp       (ParamsAPI::find / getv, stream output)

  Strings are modelled as lists of characters.  Fallible C++ operations
  (std::string::at on an empty string, std::optional::value on an empty
  optional, std::get on the wrong variant alternative) are modelled with
  Except over an explicit error type.
-/

namespace OptParser

/-- A C++ std::string, modelled as its list of characters. -/
abbrev Str := List Char

deriving instance DecidableEq for Except

/-- Exceptions thrown by the modelled C++ operations. -/
inductive CppError
  | outOfRange          -- std::out_of_range  (std::string::at past the end)
  | badVariantAccess    -- std::bad_variant_access (std::get on wrong alternative)
  | badOptionalAccess   -- std::bad_optional_access (value() on empty optional)
deriving DecidableEq, Repr

/-- ParserConfig from src/parserlib/ParserConfig.hpp. -/
structure ParserConfig where
  capture_list : List Str
  type_delims : Str
  allow_negative_numbers : Bool := true
deriving DecidableEq, Repr

/-- Default-constructed ParserConfig: empty capture list, delimiters "-". -/
def dfltCfg : ParserConfig := { capture_list := [], type_delims := ['-'] }

/-- ParserConfig::isDelim: membership of the char in _type_delims
(str::pos_valid(_type_delims.find(c)) in the source). -/
def isDelim (cfg : ParserConfig) (c : Char) : Bool :=
  cfg.type_delims.contains c

/-- ParserConfig::countPrefix: the loop
`for (i = 0; i < str.size() && i < max; ++i) count += isDelim(str.at(i));`.
Note that the loop adds isDelim for every one of the first max characters,
wherever the delimiters occur; it does not stop at the first non-delimiter.
The unused `off` parameter of the C++ signature is omitted. -/
def countPrefix (cfg : ParserConfig) : Str → Nat → Nat
  | [], _ => 0
  | _, 0 => 0
  | c :: rest, m + 1 => (if isDelim cfg c then 1 else 0) + countPrefix cfg rest m

/-- ParserConfig::allowCapture(std::string): false on empty input or empty
capture list, otherwise strips countPrefix(str) leading characters and
tests membership in _capture_list. -/
def allowCapture (cfg : ParserConfig) (s : Str) : Bool :=
  if s.isEmpty || cfg.capture_list.isEmpty then false
  else cfg.capture_list.contains (s.drop ( countPrefix cfg s 2))

/-- Variant argument type from src/parserlib/VariantArgument.hpp:
std::variant over monostate, Parameter (string), Option (string and
optional capture) and Flag (char and optional capture).  The _type field
of the C++ class is always determineVariantType(_arg), so the tag is
represented by the constructor alone. -/
inductive VariantArgument
  | null
  | param (value : Str)
  | opt (name : Str) (captured : Option Str)
  | flag (symbol : Char) (captured : Option Str)
deriving DecidableEq, Repr

/-- Tag enumeration (enum class Type in VariantType.hpp). -/
inductive ArgType
  | monostate
  | parameter
  | option
  | flag
deriving DecidableEq, Repr

/-- VariantArgument::type (the stored _type, i.e. determineVariantType). -/
def VariantArgument.type : VariantArgument → ArgType
  | .null => .monostate
  | .param _ => .parameter
  | .opt _ _ => .option
  | .flag _ _ => .flag

/-- VariantArgument::name: Parameter value, Option name, Flag symbol as a
one-character string, empty for the monostate. -/
def VariantArgument.name : VariantArgument → Str
  | .null => []
  | .param s => s
  | .opt n _ => n
  | .flag c _ => [c]

/-- VariantArgument::hasv: whether a Flag or Option has a captured value. -/
def VariantArgument.hasv : VariantArgument → Bool
  | .opt _ cap => cap.isSome
  | .flag _ cap => cap.isSome
  | _ => false

/-- VariantArgument::getv (the non-template overload): dispatches on the
tag; for Flag and Option it calls get<Flag>().second.value() resp.
get<Option>().second.value(), which throws bad_optional_access when no
value was captured; otherwise returns an empty optional. -/
def VariantArgument.getv : VariantArgument → Except CppError (Option Str)
  | .flag _ (some v) => .ok (some v)
  | .flag _ none => .error .badOptionalAccess
  | .opt _ (some v) => .ok (some v)
  | .opt _ none => .error .badOptionalAccess
  | .param _ => .ok none
  | .null => .ok none

/-- VariantArgument::getv<Option>: get<Option>(_arg).second.value().
std::get throws bad_variant_access unless the active alternative is
Option; value() throws bad_optional_access on an empty optional. -/
def getvOption : VariantArgument → Except CppError (Option Str)
  | .opt _ (some v) => .ok (some v)
  | .opt _ none => .error .badOptionalAccess
  | _ => .error .badVariantAccess

/-- The captured payload of an argument, as plain data (none for
Parameter and monostate). -/
def capturedOf : VariantArgument → Option Str
  | .opt _ cap => cap
  | .flag _ cap => cap
  | _ => none

/-- VariantArgument::operator== : `_type == o._type && _arg == o._arg`. -/
def vaEq (a b : VariantArgument) : Bool :=
  (a.type == b.type) && (a == b)

/-- VariantArgument::operator!= as written in the source:
`return _type == o._type && _arg == o._arg;` (identical body to
operator==, with no negation). -/
def vaNe (a b : VariantArgument) : Bool :=
  (a.type == b.type) && (a == b)

/-- Stream insertion operator<<(std::ostream, VariantArgument): writes the
Parameter value, the Option name, or the Flag character; nothing else (in
particular no prefix characters and no captured value). -/
def renderArg : VariantArgument → Str
  | .null => []
  | .param s => s
  | .opt n _ => n
  | .flag c _ => [c]

/-- Stream insertion operator<<(std::ostream, ParamsAPI): each element via
operator<< on VariantArgument, with a space after every element except
the last. -/
def renderAll : List VariantArgument → Str
  | [] => []
  | [v] => renderArg v
  | v :: w :: rest => renderArg v ++ (' ' :: renderAll (w :: rest))

/-- The per-character loop of the flag branch of parseArgs (case 1u of the
switch): for each character of the cluster, if a following token exists,
allowCapture holds for the character, and the first character of the
following token (at(0u), throwing out_of_range on an empty token) is no
delimiter, emit the flag with the following token captured and advance the
cursor past it; otherwise emit the flag without capture.  Returns the
emitted flags together with the tokens remaining after the cluster. -/
def flagChars (cfg : ParserConfig) :
    List Char → List Str → Except CppError (List VariantArgument × List Str)
  | [], rest => .ok ([], rest)
  | c :: cs, [] =>
    match flagChars cfg cs [] with
    | .error e => .error e
    | .ok (vs, r) => .ok (.flag c none :: vs, r)
  | c :: cs, next :: rest =>
    if allowCapture cfg [c] then
      match next with
      | [] => .error .outOfRange
      | d :: _ =>
        if !isDelim cfg d then
          match flagChars cfg cs rest with
          | .error e => .error e
          | .ok (vs, r) => .ok (.flag c (some next) :: vs, r)
        else
          match flagChars cfg cs (next :: rest) with
          | .error e => .error e
          | .ok (vs, r) => .ok (.flag c none :: vs, r)
    else
      match flagChars cfg cs (next :: rest) with
      | .error e => .error e
      | .ok (vs, r) => .ok (.flag c none :: vs, r)


/-- The tokens remaining after a flag cluster form a suffix of the tokens
that followed the cluster. -/
theorem flagChars_suffix (cfg : ParserConfig) :
    ∀ (cs : List Char) (rest : List Str) (vs : List VariantArgument) (r : List Str),
      flagChars cfg cs rest = .ok (vs, r) → List.IsSuffix r rest := by
  intro cs
  induction cs with
  | nil =>
    intro rest vs r h
    simp only [flagChars] at h
    cases h
    exact List.suffix_refl _
  | cons c cs ih =>
    intro rest vs r h
    cases rest with
    | nil =>
      simp only [flagChars] at h
      split at h
      · cases h
      · rename_i vs0 r0 heq
        cases h
        exact ih _ _ _ heq
    | cons next rest =>
      simp only [flagChars] at h
      split at h
      · split at h
        · cases h
        · split at h
          · split at h
            · cases h
            · rename_i vs0 r0 heq
              cases h
              exact (ih _ _ _ heq).trans (List.suffix_cons _ _)
          · split at h
            · cases h
            · rename_i vs0 r0 heq
              cases h
              exact ih _ _ _ heq
      · split at h
        · cases h
        · rename_i vs0 r0 heq
          cases h
          exact ih _ _ _ heq

/-- The per-token step of parseArgs (the body of the switch in
src/parserlib/parseArgs.hpp), returning the emitted arguments and the
remaining tokens:
  dashCount = countPrefix(token) (max 2);
  case 2u (Option): if a following token exists, allowCapture(token) holds,
  and the first character of the following token (at(0u), which throws
  out_of_range on an empty token) is no delimiter, emit the Option with the
  following token captured and advance past it, else emit it uncaptured;
  the name is the token with the first two characters stripped;
  case 1u (Flag cluster): with hex = (substr(1,2) == "0x"), if not hex and
  not every remaining character is a digit or a dot, run the per-character
  flag loop (flagChars); otherwise fall through to the Parameter case;
  case 0u (Parameter): emit the whole token.
  The configuration field allow_negative_numbers is never consulted. -/
def parseStep (cfg : ParserConfig) (t : Str) (rest : List Str) :
    Except CppError (List VariantArgument × List Str) :=
  if countPrefix cfg t 2 == 2 then
    match rest with
    | [] => .ok ([.opt (t.drop 2) none], [])
    | next :: rest2 =>
      if allowCapture cfg t then
        match next with
        | [] => .error .outOfRange
        | d :: _ =>
          if !isDelim cfg d then .ok ([.opt (t.drop 2) (some next)], rest2)
          else .ok ([.opt (t.drop 2) none], next :: rest2)
      else .ok ([.opt (t.drop 2) none], next :: rest2)
  else if countPrefix cfg t 2 == 1 then
    if !((t.drop 1).take 2 == ['0', 'x'])
        && !((t.drop 1).all fun ch => ch.isDigit || ch == '.') then
      flagChars cfg (t.drop 1) rest
    else .ok ([.param t], rest)
  else .ok ([.param t], rest)

/-- The tokens remaining after one step form a suffix of the tokens that
followed the current one. -/
theorem parseStep_suffix (cfg : ParserConfig) (t : Str) (rest : List Str)
    (vs : List VariantArgument) (r : List Str)
    (h : parseStep cfg t rest = .ok (vs, r)) : List.IsSuffix r rest := by
  unfold parseStep at h
  split at h
  · split at h
    · cases h
      exact List.nil_suffix
    · split at h
      · split at h
        · cases h
        · split at h
          · cases h
            exact (List.suffix_refl _).trans (List.suffix_cons _ _)
          · cases h
            exact List.suffix_refl _
      · cases h
        exact List.suffix_refl _
  · split at h
    · split at h
      · exact flagChars_suffix cfg _ _ _ _ h
      · cases h
        exact List.suffix_refl _
    · cases h
      exact List.suffix_refl _

/-- parseArgs from src/parserlib/parseArgs.hpp: the loop over the token
list; each iteration runs the switch (parseStep) on the current token,
appends what it emitted, and continues after the tokens the step
consumed. -/
def parseArgs (cfg : ParserConfig) : List Str → Except CppError (List VariantArgument)
  | [] => .ok []
  | t :: rest =>
    match h : parseStep cfg t rest with
    | .error e => .error e
    | .ok (vs, r) =>
      match parseArgs cfg r with
      | .error e => .error e
      | .ok out => .ok (vs ++ out)
termination_by l => l.length
decreasing_by
  have := (parseStep_suffix cfg _ _ _ _ h).length_le
  simp only [List.length_cons]
  omega

theorem parseArgs_nil (cfg : ParserConfig) : parseArgs cfg [] = .ok [] := by
  rw [parseArgs.eq_def]

/-- One unfolding of the parseArgs loop. -/
theorem parseArgs_cons (cfg : ParserConfig) (t : Str) (rest : List Str) :
    parseArgs cfg (t :: rest) =
      match parseStep cfg t rest with
      | .error e => .error e
      | .ok (vs, r) =>
        match parseArgs cfg r with
        | .error e => .error e
        | .ok out => .ok (vs ++ out) := by
  rw [parseArgs.eq_def]
  split
  · rename_i heq
    cases heq
  · rename_i t2 rest2 heq
    injection heq with h1 h2
    subst h1
    subst h2
    split <;> split <;> simp_all


/-- The match test of Params::find(const std::string, const_iterator, bool):
check_flags is set when the key has size one; Parameters match on equal
value; Options match on equal name, or (with check_captures) on an equal
captured value; Flags are examined only when check_captures or check_flags
holds, and match on an equal captured value or (with check_flags) on the
symbol equalling the first character of the key. -/
def matchStr (check_captures : Bool) (key : Str) (v : VariantArgument) : Bool :=
  let check_flags := key.length == 1
  match v with
  | .null => false
  | .param s => s == key
  | .opt n cap => n == key || (check_captures && cap == some key)
  | .flag c cap =>
    (check_captures || check_flags) &&
      (cap == some key || (check_flags && key == [c]))

/-- The match test of Params::find(const char, const_iterator): only a
Flag with the given symbol matches. -/
def matchChar (key : Char) (v : VariantArgument) : Bool :=
  match v with
  | .flag c _ => c == key
  | _ => false

/-- The match test of ParamsAPI::find: the element name equals the
stringified key. -/
def matchName (key : Str) (v : VariantArgument) : Bool :=
  v.name == key

/-- Linear search from a starting offset (inclusive): the first position
at or after off whose element satisfies p, as in the find loops of
Params.hpp and the std::find_if of ParamsAPI.hpp.  Iterators are modelled
as positions; the end iterator is the value none. -/
def findIdxFrom (p : α → Bool) : List α → Nat → Option Nat
  | [], _ => none
  | v :: vs, 0 => if p v then some 0 else (findIdxFrom p vs 0).map (· + 1)
  | _ :: vs, off + 1 => (findIdxFrom p vs off).map (· + 1)

theorem findIdxFrom_ge (p : α → Bool) :
    ∀ (l : List α) (off i : Nat), findIdxFrom p l off = some i → off ≤ i := by
  intro l
  induction l with
  | nil => intro off i h; cases h
  | cons v vs ih =>
    intro off i h
    cases off with
    | zero => omega
    | succ off =>
      simp only [findIdxFrom, Option.map_eq_some'] at h
      obtain ⟨j, hj, rfl⟩ := h
      have := ih off j hj
      omega

theorem findIdxFrom_lt (p : α → Bool) :
    ∀ (l : List α) (off i : Nat), findIdxFrom p l off = some i → i < l.length := by
  intro l
  induction l with
  | nil => intro off i h; cases h
  | cons v vs ih =>
    intro off i h
    cases off with
    | zero =>
      simp only [findIdxFrom] at h
      split at h
      · cases h; simp
      · simp only [Option.map_eq_some'] at h
        obtain ⟨j, hj, rfl⟩ := h
        have := ih 0 j hj
        simp only [List.length_cons]
        omega
    | succ off =>
      simp only [findIdxFrom, Option.map_eq_some'] at h
      obtain ⟨j, hj, rfl⟩ := h
      have := ih off j hj
      simp only [List.length_cons]
      omega

theorem findIdxFrom_sat (p : α → Bool) (d : α) :
    ∀ (l : List α) (off i : Nat), findIdxFrom p l off = some i →
      p (l.getD i d) = true := by
  intro l
  induction l with
  | nil => intro off i h; cases h
  | cons v vs ih =>
    intro off i h
    cases off with
    | zero =>
      simp only [findIdxFrom] at h
      split at h
      · cases h; assumption
      · simp only [Option.map_eq_some'] at h
        obtain ⟨j, hj, rfl⟩ := h
        simpa using ih 0 j hj
    | succ off =>
      simp only [findIdxFrom, Option.map_eq_some'] at h
      obtain ⟨j, hj, rfl⟩ := h
      simpa using ih off j hj

/-- Params::findAll: repeated find, restarting one past each hit, as in
`for (it = find(arg, off); it != end; it = find(arg, it + 1))`.
Termination is by the strictly increasing offset (the C++ loop argument). -/
def findAllFrom (p : α → Bool) (l : List α) (off : Nat) : List Nat :=
  match h : findIdxFrom p l off with
  | none => []
  | some i => i :: findAllFrom p l (i + 1)
termination_by l.length - off
decreasing_by
  have h1 := findIdxFrom_ge p l off i h
  have h2 := findIdxFrom_lt p l off i h
  omega

/-- Params::getv(const std::string, const_iterator): returns nullopt at
the end iterator, otherwise runs find from one past the given offset
(with check_captures defaulted to false) and projects through
getv<Option>(), which throws when the found element is not an Option
carrying a captured value. -/
def Params_getv (args : List VariantArgument) (key : Str) (off : Nat) :
    Except CppError (Option Str) :=
  if off == args.length then .ok none
  else
    match findIdxFrom (matchStr false key) args (off + 1) with
    | none => .ok none
    | some i => getvOption (args.getD i .null)

/-- ParamsAPI::getv: find from the given offset with the name-equality
test; when a position is found and hasv() holds there, return getv() of
that element, otherwise nullopt. -/
def ParamsAPI_getv (args : List VariantArgument) (key : Str) (off : Nat) :
    Except CppError (Option Str) :=
  match findIdxFrom (matchName key) args off with
  | some i =>
    if (args.getD i .null).hasv then (args.getD i .null).getv else .ok none
  | none => .ok none

/-- ParamsAPI::find for a char key: to_string(char) produces the
one-character string, then std::find_if compares element names with it. -/
def ParamsAPI_findChar (key : Char) (args : List VariantArgument) (off : Nat) :
    Option Nat :=
  findIdxFrom (matchName [key]) args off

/-- The projection described by the specification for get_captured_value:
find, then take the captured value of the found element, none when
nothing was found or nothing was captured. -/
def getvSpec (args : List VariantArgument) (key : Str) (off : Nat) : Option Str :=
  match findIdxFrom (matchName key) args off with
  | some i => capturedOf (args.getD i .null)
  | none => none

theorem mem_findAllFrom_ge (p : α → Bool) (l : List α) (off : Nat) :
    ∀ j ∈ findAllFrom p l off, off ≤ j := by
  induction off using findAllFrom.induct p l with
  | case1 off h => rw [findAllFrom, h]; simp
  | case2 off i h ih =>
    rw [findAllFrom, h]
    intro j hj
    rcases List.mem_cons.mp hj with rfl | hj
    · exact findIdxFrom_ge p l off j h
    · have := ih j hj
      have := findIdxFrom_ge p l off i h
      omega

theorem findAllFrom_pairwise (p : α → Bool) (l : List α) (off : Nat) :
    List.Pairwise (· < ·) (findAllFrom p l off) := by
  induction off using findAllFrom.induct p l with
  | case1 off h => rw [findAllFrom, h]; exact List.Pairwise.nil
  | case2 off i h ih =>
    rw [findAllFrom, h]
    refine List.pairwise_cons.mpr ⟨?_, ih⟩
    intro j hj
    have := mem_findAllFrom_ge p l (i + 1) j hj
    omega

theorem findIdxFrom_drop (p : α → Bool) :
    ∀ (l : List α) (off : Nat),
      findIdxFrom p l off = (findIdxFrom p (l.drop off) 0).map (· + off) := by
  intro l
  induction l with
  | nil => intro off; simp [findIdxFrom]
  | cons v vs ih =>
    intro off
    cases off with
    | zero =>
      simp only [List.drop_zero]
      cases hx : findIdxFrom p (v :: vs) 0 <;> simp [hx]
    | succ off =>
      simp only [findIdxFrom, List.drop_succ_cons, ih off]
      cases hx : findIdxFrom p (vs.drop off) 0 <;> simp [Nat.add_assoc]

theorem findIdxFrom_zero_none (p : α → Bool) :
    ∀ l : List α, findIdxFrom p l 0 = none → l.countP p = 0 := by
  intro l
  induction l with
  | nil => intro h; simp
  | cons v vs ih =>
    intro h
    simp only [findIdxFrom] at h
    split at h
    · cases h
    · rename_i hv
      simp only [Option.map_eq_none'] at h
      rw [List.countP_cons, ih h]
      simp [hv]

theorem findIdxFrom_zero_some (p : α → Bool) :
    ∀ (l : List α) (i : Nat), findIdxFrom p l 0 = some i →
      l.countP p = 1 + (l.drop (i + 1)).countP p := by
  intro l
  induction l with
  | nil => intro i h; cases h
  | cons v vs ih =>
    intro i h
    simp only [findIdxFrom] at h
    split at h
    · rename_i hv
      cases h
      rw [List.countP_cons]
      simp [hv, Nat.add_comm]
    · rename_i hv
      simp only [Option.map_eq_some'] at h
      obtain ⟨j, hj, rfl⟩ := h
      rw [List.countP_cons, ih j hj]
      simp only [Bool.not_eq_true] at hv
      simp [hv]

theorem findAllFrom_length (p : α → Bool) (l : List α) (off : Nat) :
    (findAllFrom p l off).length = (l.drop off).countP p := by
  induction off using findAllFrom.induct p l with
  | case1 off h =>
    rw [findAllFrom, h]
    have hd := findIdxFrom_drop p l off
    rw [h] at hd
    have h0 : findIdxFrom p (l.drop off) 0 = none := by
      cases hx : findIdxFrom p (l.drop off) 0
      · rfl
      · rw [hx] at hd; cases hd
    rw [findIdxFrom_zero_none p _ h0]
    rfl
  | case2 off i h ih =>
    rw [findAllFrom, h]
    have hoff := findIdxFrom_ge p l off i h
    have hd := findIdxFrom_drop p l off
    rw [h] at hd
    have h0 : findIdxFrom p (l.drop off) 0 = some (i - off) := by
      cases hx : findIdxFrom p (l.drop off) 0 with
      | none => rw [hx] at hd; cases hd
      | some j =>
        rw [hx] at hd
        simp only [Option.map_some'] at hd
        injection hd with hd2
        rw [hd2]
        congr 1
        omega
    have hc := findIdxFrom_zero_some p (l.drop off) (i - off) h0
    rw [List.drop_drop] at hc
    rw [show off + (i - off + 1) = i + 1 by omega] at hc
    simp only [List.length_cons, ih, hc]
    omega

/-- The symbol of a Flag argument (arbitrary for the other variants). -/
def flagSym : VariantArgument → Char
  | .flag c _ => c
  | _ => ' '

/-- Structure of the flag-cluster output: one Flag per cluster character in
left-to-right order, and the captured values are, in order, exactly the
tokens the cluster consumed from the following token list. -/
theorem flagChars_main (cfg : ParserConfig) :
    ∀ (cs : List Char) (rest : List Str) (vs : List VariantArgument) (r : List Str),
      flagChars cfg cs rest = .ok (vs, r) →
      vs.map flagSym = cs ∧
      (∀ v ∈ vs, ∃ c cap, v = VariantArgument.flag c cap) ∧
      vs.filterMap capturedOf = rest.take (rest.length - r.length) := by
  intro cs
  induction cs with
  | nil =>
    intro rest vs r h
    simp only [flagChars] at h
    cases h
    simp
  | cons c cs ih =>
    intro rest vs r h
    cases rest with
    | nil =>
      simp only [flagChars] at h
      split at h
      · cases h
      · rename_i vs0 r0 heq
        cases h
        obtain ⟨h1, h2, h3⟩ := ih _ _ _ heq
        refine ⟨by simp [flagSym, h1], ?_, ?_⟩
        · intro v hv
          rcases List.mem_cons.mp hv with rfl | hv
          · exact ⟨c, none, rfl⟩
          · exact h2 v hv
        · simpa [capturedOf] using h3
    | cons next rest =>
      simp only [flagChars] at h
      split at h
      · split at h
        · cases h
        · rename_i d ds
          split at h
          · split at h
            · cases h
            · rename_i vs0 r0 heq
              cases h
              obtain ⟨h1, h2, h3⟩ := ih _ _ _ heq
              have hs := (flagChars_suffix cfg _ _ _ _ heq).length_le
              refine ⟨by simp [flagSym, h1], ?_, ?_⟩
              · intro v hv
                rcases List.mem_cons.mp hv with rfl | hv
                · exact ⟨c, some (d :: ds), rfl⟩
                · exact h2 v hv
              · have hlen : ((d :: ds) :: rest).length - r.length
                    = (rest.length - r.length) + 1 := by
                  simp only [List.length_cons]; omega
                rw [hlen, List.take_succ_cons]
                simp [capturedOf, h3]
          · split at h
            · cases h
            · rename_i vs0 r0 heq
              cases h
              obtain ⟨h1, h2, h3⟩ := ih _ _ _ heq
              have hs := (flagChars_suffix cfg _ _ _ _ heq).length_le
              refine ⟨by simp [flagSym, h1], ?_, ?_⟩
              · intro v hv
                rcases List.mem_cons.mp hv with rfl | hv
                · exact ⟨c, none, rfl⟩
                · exact h2 v hv
              · simpa [capturedOf] using h3
      · split at h
        · cases h
        · rename_i vs0 r0 heq
          cases h
          obtain ⟨h1, h2, h3⟩ := ih _ _ _ heq
          have hs := (flagChars_suffix cfg _ _ _ _ heq).length_le
          refine ⟨by simp [flagSym, h1], ?_, ?_⟩
          · intro v hv
            rcases List.mem_cons.mp hv with rfl | hv
            · exact ⟨c, none, rfl⟩
            · exact h2 v hv
          · simpa [capturedOf] using h3

/-- The flag-cluster loop never throws when every following token is
non-empty. -/
theorem flagChars_ok (cfg : ParserConfig) :
    ∀ (cs : List Char) (rest : List Str), (∀ t ∈ rest, t ≠ ([] : Str)) →
      ∃ vs r, flagChars cfg cs rest = .ok (vs, r) := by
  intro cs
  induction cs with
  | nil => intro rest hne; exact ⟨[], rest, rfl⟩
  | cons c cs ih =>
    intro rest hne
    cases rest with
    | nil =>
      obtain ⟨vs, r, hrec⟩ := ih [] (by simp)
      exact ⟨.flag c none :: vs, r, by simp [flagChars, hrec]⟩
    | cons next rest =>
      have hnext : next ≠ ([] : Str) := hne next (List.mem_cons_self next rest)
      have hrestne : ∀ t ∈ rest, t ≠ ([] : Str) := fun t ht =>
        hne t (List.mem_cons_of_mem next ht)
      by_cases hc : allowCapture cfg [c] = true
      · cases next with
        | nil => exact absurd rfl hnext
        | cons d ds =>
          by_cases hd : isDelim cfg d = true
          · obtain ⟨vs, r, hrec⟩ := ih ((d :: ds) :: rest) hne
            exact ⟨.flag c none :: vs, r, by simp [flagChars, hc, hd, hrec]⟩
          · obtain ⟨vs, r, hrec⟩ := ih rest hrestne
            refine ⟨.flag c (some (d :: ds)) :: vs, r, ?_⟩
            simp only [Bool.not_eq_true] at hd
            simp [flagChars, hc, hd, hrec]
      · obtain ⟨vs, r, hrec⟩ := ih (next :: rest) hne
        exact ⟨.flag c none :: vs, r, by simp [flagChars, hc, hrec]⟩

/-- The per-token step never throws when every following token is
non-empty. -/
theorem parseStep_ok (cfg : ParserConfig) (t : Str) (rest : List Str)
    (hne : ∀ t2 ∈ rest, t2 ≠ ([] : Str)) :
    ∃ vs r, parseStep cfg t rest = .ok (vs, r) := by
  unfold parseStep
  split
  · split
    · exact ⟨_, _, rfl⟩
    · split
      · split
        · exact absurd rfl (hne [] (List.mem_cons_self _ _))
        · split
          · exact ⟨_, _, rfl⟩
          · exact ⟨_, _, rfl⟩
      · exact ⟨_, _, rfl⟩
  · split
    · split
      · obtain ⟨vs, r, hfc⟩ := flagChars_ok cfg (t.drop 1) rest hne
        exact ⟨vs, r, hfc⟩
      · exact ⟨_, _, rfl⟩
    · exact ⟨_, _, rfl⟩

/-- The classifier succeeds on every token list containing no empty
token, under every configuration. -/
theorem parseArgs_total (cfg : ParserConfig) :
    ∀ (n : Nat) (args : List Str), args.length ≤ n →
      (∀ t ∈ args, t ≠ ([] : Str)) →
      ∃ out, parseArgs cfg args = .ok out := by
  intro n
  induction n with
  | zero =>
    intro args hlen _
    have : args = [] := List.eq_nil_of_length_eq_zero (by omega)
    subst this
    exact ⟨[], parseArgs_nil cfg⟩
  | succ n ih =>
    intro args hlen hne
    cases args with
    | nil => exact ⟨[], parseArgs_nil cfg⟩
    | cons t rest =>
      have hrestne : ∀ t2 ∈ rest, t2 ≠ ([] : Str) := fun t2 ht =>
        hne t2 (List.mem_cons_of_mem t ht)
      obtain ⟨vs, r, hstep⟩ := parseStep_ok cfg t rest hrestne
      have hsuf := parseStep_suffix cfg t rest vs r hstep
      have hrne : ∀ t2 ∈ r, t2 ≠ ([] : Str) := fun t2 ht =>
        hrestne t2 (hsuf.subset ht)
      have hrlen : r.length ≤ n := by
        have := hsuf.length_le
        simp only [List.length_cons] at hlen
        omega
      obtain ⟨out, hout⟩ := ih r hrlen hrne
      refine ⟨vs ++ out, ?_⟩
      rw [parseArgs_cons, hstep]
      simp only [hout]

/-- Provenance of an emitted argument with respect to the input tokens:
no emitted argument is the null variant; a Parameter carries a whole input
token; a Flag symbol is a character of some input token; an Option name is
some input token with its first two characters stripped. -/
def emittedFrom (args : List Str) : VariantArgument → Prop
  | .null => False
  | .param s => s ∈ args
  | .flag c _ => ∃ t ∈ args, c ∈ t
  | .opt n _ => ∃ t ∈ args, n = t.drop 2

theorem emittedFrom_mono {l1 l2 : List Str} (hsub : ∀ t ∈ l1, t ∈ l2) :
    ∀ v, emittedFrom l1 v → emittedFrom l2 v := by
  intro v hv
  cases v with
  | null => exact hv.elim
  | param s => exact hsub s hv
  | flag c cap =>
    obtain ⟨t, ht, hc⟩ := hv
    exact ⟨t, hsub t ht, hc⟩
  | opt n cap =>
    obtain ⟨t, ht, hn⟩ := hv
    exact ⟨t, hsub t ht, hn⟩

theorem parseStep_prov (cfg : ParserConfig) (t : Str) (rest : List Str)
    (vs : List VariantArgument) (r : List Str)
    (h : parseStep cfg t rest = .ok (vs, r)) :
    ∀ v ∈ vs, emittedFrom [t] v := by
  unfold parseStep at h
  split at h
  · split at h
    · cases h
      intro v hv
      rcases List.mem_singleton.mp hv with rfl
      exact ⟨t, List.mem_singleton_self t, rfl⟩
    · split at h
      · split at h
        · cases h
        · split at h
          · cases h
            intro v hv
            rcases List.mem_singleton.mp hv with rfl
            exact ⟨t, List.mem_singleton_self t, rfl⟩
          · cases h
            intro v hv
            rcases List.mem_singleton.mp hv with rfl
            exact ⟨t, List.mem_singleton_self t, rfl⟩
      · cases h
        intro v hv
        rcases List.mem_singleton.mp hv with rfl
        exact ⟨t, List.mem_singleton_self t, rfl⟩
  · split at h
    · split at h
      · obtain ⟨h1, h2, h3⟩ := flagChars_main cfg (t.drop 1) rest vs r h
        intro v hv
        obtain ⟨c, cap, rfl⟩ := h2 v hv
        refine ⟨t, List.mem_singleton_self t, ?_⟩
        have hmem : flagSym (VariantArgument.flag c cap) ∈ vs.map flagSym :=
          List.mem_map_of_mem flagSym hv
        rw [h1] at hmem
        exact List.mem_of_mem_drop hmem
      · cases h
        intro v hv
        rcases List.mem_singleton.mp hv with rfl
        exact List.mem_singleton_self t
    · cases h
      intro v hv
      rcases List.mem_singleton.mp hv with rfl
      exact List.mem_singleton_self t

theorem parseArgs_prov (cfg : ParserConfig) :
    ∀ (n : Nat) (args : List Str) (out : List VariantArgument),
      args.length ≤ n → parseArgs cfg args = .ok out →
      ∀ v ∈ out, emittedFrom args v := by
  intro n
  induction n with
  | zero =>
    intro args out hlen hp
    have : args = [] := List.eq_nil_of_length_eq_zero (by omega)
    subst this
    rw [parseArgs_nil] at hp
    injection hp with hp2
    subst hp2
    intro v hv
    cases hv
  | succ n ih =>
    intro args out hlen hp
    cases args with
    | nil =>
      rw [parseArgs_nil] at hp
      injection hp with hp2
      subst hp2
      intro v hv
      cases hv
    | cons t rest =>
      rw [parseArgs_cons] at hp
      cases hstep : parseStep cfg t rest with
      | error e => rw [hstep] at hp; cases hp
      | ok p =>
        obtain ⟨vs, r⟩ := p
        simp only [hstep] at hp
        cases hrec : parseArgs cfg r with
        | error e => rw [hrec] at hp; cases hp
        | ok out2 =>
          rw [hrec] at hp
          injection hp with hp2
          subst hp2
          have hsuf := parseStep_suffix cfg t rest vs r hstep
          have hrlen : r.length ≤ n := by
            have := hsuf.length_le
            simp only [List.length_cons] at hlen
            omega
          intro v hv
          rcases List.mem_append.mp hv with hv | hv
          · exact emittedFrom_mono
              (fun t2 ht2 => by
                rw [List.mem_singleton.mp ht2]
                exact List.mem_cons_self t rest)
              v (parseStep_prov cfg t rest vs r hstep v hv)
          · exact emittedFrom_mono
              (fun t2 ht2 => List.mem_cons_of_mem t (hsuf.subset ht2))
              v (ih r out2 hrlen hrec v hv)

/-- The sequence rendering equals the space-separated concatenation of the
per-argument renderings. -/
theorem renderAll_eq (args : List VariantArgument) :
    renderAll args = List.intercalate [' '] (args.map renderArg) := by
  induction args with
  | nil => simp [renderAll, List.intercalate]
  | cons v rest ih =>
    cases rest with
    | nil => simp [renderAll, List.intercalate]
    | cons w rest2 =>
      simp only [renderAll] at ih ⊢
      rw [ih, List.map_cons, List.map_cons]
      simp [List.intercalate, List.intersperse_cons_cons]

/-- Configuration with capture list ["a"] and the default delimiters. -/
def cfgA : ParserConfig := { capture_list := [['a']], type_delims := ['-'] }

/-- Configuration with capture list ["a", "b"] and the default delimiters. -/
def cfgAB : ParserConfig := { capture_list := [['a'], ['b']], type_delims := ['-'] }

/-- The token "-0x00FE" of the hex-literal edge case. -/
def hexTok : Str := ['-', '0', 'x', '0', '0', 'F', 'E']

/-- Claim C1 (counterexample): with the default configuration (which has
allow_negative_numbers = true), classifying "-0x00FE" does not emit one
Flag per character of the remainder; it emits a single Parameter carrying
the whole token. -/
theorem counterexample_C1 :
    parseArgs dfltCfg [hexTok] ≠
      .ok [.flag '0' none, .flag 'x' none, .flag '0' none,
           .flag '0' none, .flag 'F' none, .flag 'E' none] ∧
    parseArgs dfltCfg [hexTok] = .ok [.param hexTok] := by
  have h : parseArgs dfltCfg [hexTok] = .ok [.param hexTok] := by
    simp [parseArgs_cons, parseArgs_nil, parseStep, countPrefix, isDelim, dfltCfg, hexTok]
  refine ⟨?_, h⟩
  rw [h]
  decide

/-- Claim C1 (amended): for every configuration in which the dash is a
delimiter and the digit zero is not, classifying "-0x00FE" emits exactly
one Parameter carrying the full token; the hexadecimal-looking remainder
is exempted from the flag branch (not from the Parameter reclassification),
and allow_negative_numbers is never consulted. -/
theorem claim_C1 (cfg : ParserConfig) (h1 : isDelim cfg '-' = true)
    (h2 : isDelim cfg '0' = false) :
    parseArgs cfg [hexTok] = .ok [.param hexTok] := by
  have hstep : parseStep cfg hexTok [] = .ok ([.param hexTok], []) := by
    unfold parseStep
    rw [show countPrefix cfg hexTok 2 = 1 by simp [hexTok, countPrefix, h1, h2]]
    simp [hexTok]
  rw [parseArgs_cons, hstep]
  simp [parseArgs_nil]

theorem witness_C1 :
    isDelim dfltCfg '-' = true ∧ isDelim dfltCfg '0' = false ∧
    parseArgs dfltCfg [hexTok] = .ok [.param hexTok] :=
  ⟨by decide, by decide, claim_C1 dfltCfg (by decide) (by decide)⟩

/-- Claim C2 (counterexample): the classifier can fail.  With "a" in the
capture list, the input ["--a", ""] makes the lookahead call at(0u) throw
std::out_of_range on the empty following token. -/
theorem counterexample_C2 :
    parseArgs cfgA [['-', '-', 'a'], []] = .error .outOfRange := by
  simp [parseArgs_cons, parseArgs_nil, parseStep, countPrefix, isDelim,
    allowCapture, cfgA]

/-- Claim C2 (amended): for every configuration and every finite sequence
of non-empty tokens, classification returns some ordered argument sequence
without failing; only an empty token inspected by the capture lookahead
can make it throw. -/
theorem claim_C2 (cfg : ParserConfig) (args : List Str)
    (hne : ∀ t ∈ args, t ≠ ([] : Str)) :
    ∃ out, parseArgs cfg args = .ok out :=
  parseArgs_total cfg args.length args (Nat.le_refl _) hne

theorem witness_C2 :
    (∀ t ∈ [['-', 'a'], ['x']], t ≠ ([] : Str)) ∧
    ∃ out, parseArgs dfltCfg [['-', 'a'], ['x']] = .ok out :=
  ⟨by decide, claim_C2 dfltCfg [['-', 'a'], ['x']] (by decide)⟩

/-- Claim C3 (counterexample): more than one character of a one-prefix
flag cluster can consume a following token.  With capture list ["a", "b"],
classifying ["-ab", "x", "y"] gives Flag a capturing "x" and Flag b
capturing "y" — the second character does not get captured = none. -/
theorem counterexample_C3 :
    parseArgs cfgAB [['-', 'a', 'b'], ['x'], ['y']] =
      .ok [.flag 'a' (some ['x']), .flag 'b' (some ['y'])] := by
  simp [parseArgs_cons, parseArgs_nil, parseStep, flagChars, countPrefix,
    isDelim, allowCapture, cfgAB]

/-- Claim C3 (amended): in a one-prefix flag cluster each character is
emitted as one Flag in order, and each capture-eligible character consumes
the token now following the advanced cursor, so the captured values of the
cluster are, in order, exactly the tokens the cluster consumed; several
characters of one cluster can each consume one token. -/
theorem claim_C3 (cfg : ParserConfig) (cs : List Char) (rest : List Str)
    (vs : List VariantArgument) (r : List Str)
    (h : flagChars cfg cs rest = .ok (vs, r)) :
    vs.map flagSym = cs ∧ List.IsSuffix r rest ∧
    vs.filterMap capturedOf = rest.take (rest.length - r.length) :=
  ⟨(flagChars_main cfg cs rest vs r h).1, flagChars_suffix cfg cs rest vs r h,
    (flagChars_main cfg cs rest vs r h).2.2⟩

theorem witness_C3 :
    flagChars cfgAB ['a', 'b'] [['x'], ['y']] =
      .ok ([.flag 'a' (some ['x']), .flag 'b' (some ['y'])], []) ∧
    ([VariantArgument.flag 'a' (some ['x']),
      VariantArgument.flag 'b' (some ['y'])].map flagSym = ['a', 'b'] ∧
     List.IsSuffix [] [['x'], ['y']] ∧
     [VariantArgument.flag 'a' (some ['x']),
      VariantArgument.flag 'b' (some ['y'])].filterMap capturedOf =
       [['x'], ['y']].take ([['x'], ['y']].length - ([] : List Str).length)) :=
  ⟨by decide, claim_C3 cfgAB ['a', 'b'] [['x'], ['y']] _ _ (by decide)⟩

/-- Claim C4: the code contradicts the claim.  countPrefix counts the
delimiters occurring anywhere among the first two characters, not the
leading run: on "a-" (whose first character is not a delimiter) it
returns 1, not 0. -/
theorem claim_C4 :
    countPrefix dfltCfg ['a', '-'] 2 = 1 ∧ isDelim dfltCfg 'a' = false := by
  decide

/-- Claim C5 (counterexample): the canonical rendering of an Option does
not carry the two prefix characters (and a Flag carries no prefix
character either): Option "help" renders as "help", not "--help". -/
theorem counterexample_C5 :
    renderArg (.opt ['h', 'e', 'l', 'p'] none) = ['h', 'e', 'l', 'p'] ∧
    ['h', 'e', 'l', 'p'] ≠ ['-', '-', 'h', 'e', 'l', 'p'] ∧
    renderArg (.flag 'h' none) = ['h'] ∧ ['h'] ≠ ['-', 'h'] := by
  decide

/-- Claim C5 (amended): the canonical rendering produces the bare text of
each argument — the Parameter value, the Option name with no prefix,
the Flag symbol with no prefix — never the captured value; the
sequence-level rendering joins the per-argument renderings with single
spaces. -/
theorem claim_C5 (s n : Str) (cap : Option Str) (c : Char)
    (args : List VariantArgument) :
    renderArg (.param s) = s ∧ renderArg (.opt n cap) = n ∧
    renderArg (.flag c cap) = [c] ∧
    renderAll args = List.intercalate [' '] (args.map renderArg) :=
  ⟨rfl, rfl, rfl, renderAll_eq args⟩

/-- Claim C6 (counterexample): Params::getv can fail.  On the sequence
[Parameter "x", Option "help" (no capture)] with key "help" and offset 0,
it finds the Option at position 1 (it searches from offset + 1) and then
getv<Option>() throws bad_optional_access because nothing was captured. -/
theorem counterexample_C6 :
    Params_getv [.param ['x'], .opt ['h', 'e', 'l', 'p'] none]
      ['h', 'e', 'l', 'p'] 0 = .error .badOptionalAccess := by
  decide

/-- The guarded projection of ParamsAPI::getv is exactly the captured
value of the inspected element. -/
theorem getv_of_hasv (v : VariantArgument) :
    (if v.hasv then v.getv else Except.ok none) = .ok (capturedOf v) := by
  cases v with
  | null => rfl
  | param s => rfl
  | opt nm cap => cases cap <;> rfl
  | flag c cap => cases cap <;> rfl

/-- Claim C6 (amended): ParamsAPI::getv satisfies the stated contract
verbatim: it equals find followed by the captured-value projection, with
none when nothing is found or nothing was captured, and it never fails
(Params::getv instead searches from offset + 1 and throws when the found
element is not an Option carrying a captured value). -/
theorem claim_C6 (args : List VariantArgument) (key : Str) (off : Nat) :
    ParamsAPI_getv args key off = .ok (getvSpec args key off) := by
  unfold ParamsAPI_getv getvSpec
  cases hfind : findIdxFrom (matchName key) args off with
  | none => rfl
  | some i => exact getv_of_hasv (args.getD i VariantArgument.null)

/-- Claim C7 (counterexample): for ParamsAPI::find a char key can yield a
non-Flag position: the key h matches the Parameter "h" (the char is
stringified and compared against every element name). -/
theorem counterexample_C7 :
    ParamsAPI_findChar 'h' [.param ['h']] 0 = some 0 ∧
    (VariantArgument.param ['h']).type = ArgType.parameter := by
  decide

/-- Claim C7 (amended): Params::find with a char key only ever yields a
position holding a Flag whose symbol equals the key (ParamsAPI::find, by
contrast, compares element names with the stringified char and can also
yield Parameter or Option positions). -/
theorem claim_C7 (args : List VariantArgument) (key : Char) (off i : Nat)
    (h : findIdxFrom (matchChar key) args off = some i) :
    ∃ cap, args.getD i .null = .flag key cap := by
  have hsat := findIdxFrom_sat (matchChar key) VariantArgument.null args off i h
  cases harg : args.getD i VariantArgument.null with
  | null => rw [harg] at hsat; simp [matchChar] at hsat
  | param s => rw [harg] at hsat; simp [matchChar] at hsat
  | opt nm cap => rw [harg] at hsat; simp [matchChar] at hsat
  | flag c cap =>
    rw [harg] at hsat
    simp only [matchChar, beq_iff_eq] at hsat
    subst hsat
    exact ⟨cap, rfl⟩

theorem witness_C7 :
    findIdxFrom (matchChar 'h') [VariantArgument.flag 'h' none] 0 = some 0 ∧
    ∃ cap, [VariantArgument.flag 'h' none].getD 0 VariantArgument.null =
      VariantArgument.flag 'h' cap :=
  ⟨by decide, claim_C7 [VariantArgument.flag 'h' none] 'h' 0 0 (by decide)⟩

/-- Claim C8: Params::findAll terminates (it is a total function by the
strictly increasing offset), returns strictly ascending positions, and
returns as many positions as there are elements matching the predicate of
the corresponding find overload — for string keys (check_captures
defaulted to false) and for char keys alike. -/
theorem claim_C8 (args : List VariantArgument) (key : Str) (c : Char) :
    List.Pairwise (· < ·) (findAllFrom (matchStr false key) args 0) ∧
    (findAllFrom (matchStr false key) args 0).length =
      args.countP (matchStr false key) ∧
    List.Pairwise (· < ·) (findAllFrom (matchChar c) args 0) ∧
    (findAllFrom (matchChar c) args 0).length = args.countP (matchChar c) := by
  refine ⟨findAllFrom_pairwise _ args 0, ?_, findAllFrom_pairwise _ args 0, ?_⟩
  · simpa using findAllFrom_length (matchStr false key) args 0
  · simpa using findAllFrom_length (matchChar c) args 0

/-- Claim C9 (counterexample): an emitted Option can have an empty name:
the prefix-only token "--" is classified as an Option whose name is the
empty string. -/
theorem counterexample_C9 :
    parseArgs dfltCfg [['-', '-']] = .ok [.opt [] none] ∧
    (VariantArgument.opt [] none).name = [] := by
  refine ⟨?_, rfl⟩
  simp [parseArgs_cons, parseArgs_nil, parseStep, countPrefix, isDelim, dfltCfg]

/-- Claim C9 (amended): whenever classification succeeds, every emitted
argument is a Parameter, Option or Flag (never the null variant); every
emitted Parameter carries a whole input token (including prefix-only
tokens); every emitted Flag symbol is a character drawn from an input
token (it can be any character, including a space); and every emitted
Option name is an input token with its first two characters stripped —
which is empty for a prefix-only token such as "--". -/
theorem claim_C9 (cfg : ParserConfig) (args : List Str)
    (out : List VariantArgument) (h : parseArgs cfg args = .ok out) :
    ∀ v ∈ out, emittedFrom args v :=
  parseArgs_prov cfg args.length args out (Nat.le_refl _) h

theorem witness_C9 :
    parseArgs dfltCfg [['-', 'h']] = .ok [.flag 'h' none] ∧
    ∀ v ∈ [VariantArgument.flag 'h' none], emittedFrom [['-', 'h']] v := by
  have h : parseArgs dfltCfg [['-', 'h']] = .ok [.flag 'h' none] := by
    simp [parseArgs_cons, parseArgs_nil, parseStep, flagChars, countPrefix,
      isDelim, allowCapture, dfltCfg]
  exact ⟨h, claim_C9 dfltCfg [['-', 'h']] [.flag 'h' none] h⟩

/-- Claim C10: the code contradicts the claim.  operator!= has the same
body as operator== (no negation): two unequal Parameters compare
not-unequal, and a value compares unequal to itself. -/
theorem claim_C10 :
    vaNe (.param ['a']) (.param ['a']) = true ∧
    vaNe (.param ['a']) (.param ['b']) = false ∧
    vaEq (.param ['a']) (.param ['b']) = false := by
  decide

end OptParser
